import Mathlib

/-!
Shallow embedding of `src/CVSdupRmvr.py` (CSV filter / sort / deduplicate tool).

The program reads a CSV file, keeps the data rows whose comma-joined fields
contain "San Diego" or "La Jolla", sorts the survivors by the string in
column 0, drops all but the first row for each column-0 value, and writes
the header (when one existed) followed by the surviving rows.

The embedding models the in-memory table as `List Row` with
`Row := List String`, the file system as `FileInput` (a missing file or a
list of parsed rows), and the observable outcome of `process_csv` as a
`ProcResult`: the rows written to the output file (if any) together with
the status reports printed.  Python's `str` comparison (used by
`list.sort(key=...)`) is lexicographic by code point; it is embedded as
the executable `charsLt`/`keyLe` below and proved equivalent to Lean's
`String` order.  Python's Timsort is a stable sort, embedded as a stable
insertion sort over the same key.
-/

/-- A CSV row: an ordered sequence of string fields, as produced by
`csv.reader` (field counts may vary per row; a blank line yields `[]`). -/
abbrev Row := List String

/-- Lexicographic-by-code-point strict comparison of character lists: the
ordering Python uses on `str` sort keys. -/
def charsLt : List Char → List Char → Bool
  | [], [] => false
  | [], _ :: _ => true
  | _ :: _, [] => false
  | a :: s, b :: t =>
    (decide (a.toNat < b.toNat)) || (a.toNat == b.toNat && charsLt s t)

/-- Boolean form of Python string `<=` on sort keys: `a ≤ b` iff `¬ b < a`. -/
def keyLe (a b : String) : Bool := !(charsLt b.data a.data)

/-- The sort / deduplication key `row[0]`.  It is totalised with `""`, but the
pipeline only applies it to rows already checked to be nonempty (the
`IndexError` of a genuine `row[0]` on an empty row is modelled in
`sortStage`). -/
def col0 (r : Row) : String := r.headD ""

/-- Does the character list `s` start with the pattern `p`? -/
def strStartsWith : List Char → List Char → Bool
  | _, [] => true
  | [], _ :: _ => false
  | a :: s, b :: p => a == b && strStartsWith s p

/-- Does the character list `s` contain `p` as a contiguous run?  This is the
semantics of Python's `sub in s` substring test. -/
def hasSub : List Char → List Char → Bool
  | [], p => strStartsWith [] p
  | a :: t, p => strStartsWith (a :: t) p || hasSub t p

/-- Python's `sub in s` on strings: literal, case-sensitive substring test. -/
def strContains (s sub : String) : Bool := hasSub s.data sub.data

/-- Specification-level notion of literal substring: `sub` occurs contiguously
inside `s`. -/
def SubstrOf (sub s : String) : Prop := ∃ u v : String, s = u ++ sub ++ v

/-- The keyword filter of step 2 of `process_csv`: join the fields with `","`
and keep the row iff the joined string contains `"San Diego"` or
`"La Jolla"`. -/
def keywordRow (row : Row) : Bool :=
  let row_as_string := String.intercalate "," row
  strContains row_as_string "San Diego" || strContains row_as_string "La Jolla"

/-- The status and error reports `process_csv` prints.  `success` stands for
the two success prints, `noData` for the empty-input message, `fileNotFound`
for the `FileNotFoundError` handler and `malformedRow` for the `IndexError`
handler. -/
inductive Report where
  | noData
  | success
  | fileNotFound
  | malformedRow
  deriving DecidableEq

/-- Insert a row into an already built list, before the first element whose
key is not smaller: the placement a stable sort gives the row. -/
def insertRow (r : Row) : List Row → List Row
  | [] => [r]
  | x :: xs => if keyLe (col0 r) (col0 x) then r :: x :: xs else x :: insertRow r xs

/-- Stable sort of the rows by the column-0 key, the effect of
`pre_filtered_rows.sort(key=lambda row: row[0])` (Timsort is stable, and any
two stable sorts by the same key agree). -/
def sortRows : List Row → List Row
  | [] => []
  | r :: rs => insertRow r (sortRows rs)

/-- Step 3 of `process_csv`: computing the sort keys evaluates `row[0]` on
every row, so a zero-field row raises `IndexError` (caught and reported as
`malformedRow`); otherwise the rows are stably sorted by column 0. -/
def sortStage (rows : List Row) : Except Report (List Row) :=
  if rows.all (fun r => !r.isEmpty) then Except.ok (sortRows rows)
  else Except.error Report.malformedRow

/-- Step 4 of `process_csv`: one left-to-right pass keeping a row iff its
column-0 value is not in the `seen_first_column_values` set (modelled as the
list `seen`). -/
def dedupLoop : List Row → List String → List Row
  | [], _ => []
  | r :: rs, seen =>
    if col0 r ∈ seen then dedupLoop rs seen
    else r :: dedupLoop rs (col0 r :: seen)

/-- The filter–sort–dedup core of `process_csv` applied to the data rows
(everything after the header). -/
def transform (dataRows : List Row) : Except Report (List Row) := do
  let pre_filtered_rows := dataRows.filter keywordRow
  let sorted ← sortStage pre_filtered_rows
  pure (dedupLoop sorted [])

/-- The input file as `process_csv` observes it: either absent
(`FileNotFoundError` on `open`) or a list of parsed CSV rows. -/
inductive FileInput where
  | missing
  | present (rows : List Row)

/-- The observable outcome of one run of `process_csv`: the rows written to
the output file (`none` when the output file is never opened) and the
reports printed. -/
structure ProcResult where
  written : Option (List Row)
  messages : List Report
  deriving DecidableEq

/-- The whole of `process_csv`: split the first raw row off as the header,
return early (writing header only) when there are no data rows, otherwise
run the filter–sort–dedup transform and write header plus surviving rows;
a missing input file or a transform error is reported and nothing is
written. -/
def process_csv : FileInput → ProcResult
  | FileInput.missing => { written := none, messages := [Report.fileNotFound] }
  | FileInput.present rawRows =>
    match rawRows with
    | [] => { written := some [], messages := [Report.noData] }
    | header :: dataRows =>
      if dataRows.isEmpty then
        { written := some [header], messages := [Report.noData] }
      else
        match transform dataRows with
        | Except.ok finalRows =>
          { written := some (header :: finalRows), messages := [Report.success] }
        | Except.error e => { written := none, messages := [e] }

/-! ### The embedded comparison agrees with the order on `String` -/

theorem charsLt_iff (s t : List Char) : charsLt s t = true ↔ List.lt s t := by
  induction s generalizing t with
  | nil =>
    cases t with
    | nil =>
      refine iff_of_false (by decide) ?_
      intro h
      cases h
    | cons b bs =>
      exact iff_of_true rfl (List.lt.nil b bs)
  | cons a as ih =>
    cases t with
    | nil =>
      refine iff_of_false ?_ ?_
      · intro h
        simp [charsLt] at h
      · intro h
        cases h
    | cons b bs =>
      simp only [charsLt, Bool.or_eq_true, Bool.and_eq_true, decide_eq_true_eq,
        beq_iff_eq]
      constructor
      · intro h
        rcases h with h | ⟨heq, hrec⟩
        · exact List.lt.head as bs h
        · have hab : a = b := by
            apply Char.ext
            exact UInt32.toNat.inj heq
          subst hab
          exact List.lt.tail (Nat.lt_irrefl a.toNat) (Nat.lt_irrefl a.toNat)
            ((ih bs).mp hrec)
      · intro h
        cases h with
        | head _ _ hab => exact Or.inl hab
        | tail h1 h2 hrec =>
          have h1n : ¬ a.toNat < b.toNat := h1
          have h2n : ¬ b.toNat < a.toNat := h2
          exact Or.inr ⟨by omega, (ih bs).mpr hrec⟩

theorem string_lt_iff (a b : String) : a < b ↔ List.lt a.data b.data := by
  rw [String.lt_iff_toList_lt]
  exact (List.lt_iff_lex_lt a.data b.data).symm

theorem keyLe_iff (a b : String) : keyLe a b = true ↔ a ≤ b := by
  rw [keyLe, Bool.not_eq_true']
  constructor
  · intro h
    rw [← not_lt]
    intro hba
    have hc : charsLt b.data a.data = true :=
      (charsLt_iff b.data a.data).mpr ((string_lt_iff b a).mp hba)
    rw [h] at hc
    cases hc
  · intro h
    cases hq : charsLt b.data a.data
    · rfl
    · exact absurd ((string_lt_iff b a).mpr ((charsLt_iff b.data a.data).mp hq))
        (not_lt.mpr h)

theorem keyLe_refl (a : String) : keyLe a a = true :=
  (keyLe_iff a a).mpr (le_refl a)

theorem keyLe_total (a b : String) : keyLe a b = true ∨ keyLe b a = true := by
  rcases le_total a b with h | h
  · exact Or.inl ((keyLe_iff a b).mpr h)
  · exact Or.inr ((keyLe_iff b a).mpr h)

theorem le_of_not_keyLe {a b : String} (h : ¬ keyLe a b = true) : b ≤ a := by
  rcases keyLe_total a b with h1 | h1
  · exact absurd h1 h
  · exact (keyLe_iff b a).mp h1

/-! ### The substring test is literal substring occurrence -/

theorem strStartsWith_iff (s p : List Char) :
    strStartsWith s p = true ↔ ∃ t, s = p ++ t := by
  induction s generalizing p with
  | nil =>
    cases p with
    | nil => simp [strStartsWith]
    | cons b bs => simp [strStartsWith]
  | cons a as ih =>
    cases p with
    | nil => simp [strStartsWith]
    | cons b bs =>
      simp only [strStartsWith, Bool.and_eq_true, beq_iff_eq, List.cons_append]
      constructor
      · rintro ⟨rfl, h⟩
        obtain ⟨t, rfl⟩ := (ih bs).mp h
        exact ⟨t, rfl⟩
      · rintro ⟨t, heq⟩
        cases heq
        exact ⟨rfl, (ih bs).mpr ⟨t, rfl⟩⟩

theorem hasSub_iff (s p : List Char) :
    hasSub s p = true ↔ ∃ u t, s = u ++ (p ++ t) := by
  induction s with
  | nil =>
    simp only [hasSub, strStartsWith_iff]
    constructor
    · rintro ⟨t, h⟩
      exact ⟨[], t, h⟩
    · rintro ⟨u, t, h⟩
      cases u with
      | nil => exact ⟨t, h⟩
      | cons x xs => cases h
  | cons a as ih =>
    simp only [hasSub, Bool.or_eq_true, strStartsWith_iff, ih]
    constructor
    · rintro (⟨t, h⟩ | ⟨u, t, h⟩)
      · exact ⟨[], t, h⟩
      · exact ⟨a :: u, t, by simp [h]⟩
    · rintro ⟨u, t, h⟩
      cases u with
      | nil => exact Or.inl ⟨t, h⟩
      | cons x xs =>
        cases h
        exact Or.inr ⟨xs, t, rfl⟩

theorem strContains_iff (s sub : String) :
    strContains s sub = true ↔ SubstrOf sub s := by
  rw [strContains, hasSub_iff]
  constructor
  · rintro ⟨u, t, h⟩
    refine ⟨⟨u⟩, ⟨t⟩, ?_⟩
    apply String.ext
    simp only [String.data_append]
    rw [h]
    simp
  · rintro ⟨u, v, rfl⟩
    exact ⟨u.data, v.data, by simp [String.data_append]⟩

theorem keywordRow_iff (row : Row) :
    keywordRow row = true ↔
      SubstrOf "San Diego" (String.intercalate "," row) ∨
      SubstrOf "La Jolla" (String.intercalate "," row) := by
  simp only [keywordRow, Bool.or_eq_true, strContains_iff]

theorem keywordRow_nil : keywordRow [] = false := by decide

/-! ### The stable sort: permutation, sortedness, stability, idempotence -/

/-- Ascending order of rows by the column-0 key. -/
def rowLe (a b : Row) : Prop := col0 a ≤ col0 b

theorem insertRow_perm (r : Row) (l : List Row) : (insertRow r l).Perm (r :: l) := by
  induction l with
  | nil => exact List.Perm.refl _
  | cons x xs ih =>
    rw [insertRow]
    by_cases h : keyLe (col0 r) (col0 x) = true
    · rw [if_pos h]
    · rw [if_neg h]
      exact (ih.cons x).trans (List.Perm.swap r x xs)

theorem sortRows_perm (l : List Row) : (sortRows l).Perm l := by
  induction l with
  | nil => exact List.Perm.refl _
  | cons r rs ih =>
    rw [sortRows]
    exact (insertRow_perm r (sortRows rs)).trans (ih.cons r)

theorem sorted_insertRow (r : Row) {l : List Row} (h : l.Pairwise rowLe) :
    (insertRow r l).Pairwise rowLe := by
  induction l with
  | nil =>
    rw [insertRow]
    exact List.pairwise_singleton rowLe r
  | cons x xs ih =>
    rw [List.pairwise_cons] at h
    obtain ⟨hx, hxs⟩ := h
    rw [insertRow]
    by_cases hc : keyLe (col0 r) (col0 x) = true
    · rw [if_pos hc]
      rw [List.pairwise_cons]
      refine ⟨?_, List.pairwise_cons.mpr ⟨hx, hxs⟩⟩
      intro y hy
      rcases List.mem_cons.mp hy with rfl | hy2
      · exact (keyLe_iff _ _).mp hc
      · exact le_trans ((keyLe_iff _ _).mp hc) (hx y hy2)
    · rw [if_neg hc]
      rw [List.pairwise_cons]
      refine ⟨?_, ih hxs⟩
      intro y hy
      rcases List.mem_cons.mp ((insertRow_perm r xs).mem_iff.mp hy) with rfl | hy2
      · exact le_of_not_keyLe hc
      · exact hx y hy2

theorem sortRows_sorted (l : List Row) : (sortRows l).Pairwise rowLe := by
  induction l with
  | nil => exact List.Pairwise.nil
  | cons r rs ih =>
    rw [sortRows]
    exact sorted_insertRow r ih

theorem sortRows_of_sorted {l : List Row} (h : l.Pairwise rowLe) : sortRows l = l := by
  induction l with
  | nil => rfl
  | cons r rs ih =>
    rw [List.pairwise_cons] at h
    obtain ⟨hr, hrs⟩ := h
    rw [sortRows, ih hrs]
    cases rs with
    | nil => rfl
    | cons x xs =>
      rw [insertRow, if_pos ((keyLe_iff _ _).mpr (hr x (List.mem_cons_self x xs)))]

theorem filter_insertRow_pos (k : String) (r : Row) (l : List Row)
    (h : (col0 r == k) = true) :
    (insertRow r l).filter (fun x => col0 x == k) =
      r :: l.filter (fun x => col0 x == k) := by
  induction l with
  | nil =>
    rw [insertRow, List.filter_cons, List.filter_nil]
    simp [h]
  | cons x xs ih =>
    rw [insertRow]
    by_cases hc : keyLe (col0 r) (col0 x) = true
    · rw [if_pos hc, List.filter_cons]
      simp [h]
    · rw [if_neg hc]
      have hx : (col0 x == k) = false := by
        cases hxk : (col0 x == k)
        · rfl
        · have h1 : col0 r = k := eq_of_beq h
          have h2 : col0 x = k := eq_of_beq hxk
          rw [h1, ← h2] at hc
          exact absurd (keyLe_refl (col0 x)) hc
      rw [List.filter_cons, List.filter_cons]
      simp only [hx, ih]
      simp

theorem filter_insertRow_neg (k : String) (r : Row) (l : List Row)
    (h : (col0 r == k) = false) :
    (insertRow r l).filter (fun x => col0 x == k) =
      l.filter (fun x => col0 x == k) := by
  induction l with
  | nil =>
    rw [insertRow, List.filter_cons, List.filter_nil]
    simp [h]
  | cons x xs ih =>
    rw [insertRow]
    by_cases hc : keyLe (col0 r) (col0 x) = true
    · rw [if_pos hc, List.filter_cons]
      simp [h]
    · rw [if_neg hc, List.filter_cons, List.filter_cons, ih]

theorem filter_sortRows (k : String) (l : List Row) :
    (sortRows l).filter (fun x => col0 x == k) =
      l.filter (fun x => col0 x == k) := by
  induction l with
  | nil => rfl
  | cons r rs ih =>
    rw [sortRows]
    cases hb : (col0 r == k)
    · rw [filter_insertRow_neg k r _ hb, ih, List.filter_cons]
      simp [hb]
    · rw [filter_insertRow_pos k r _ hb, ih, List.filter_cons]
      simp [hb]

/-! ### The deduplication pass -/

theorem dedupLoop_sublist (s : List Row) (seen : List String) :
    (dedupLoop s seen).Sublist s := by
  induction s generalizing seen with
  | nil => exact List.Sublist.refl []
  | cons r rs ih =>
    rw [dedupLoop]
    by_cases h : col0 r ∈ seen
    · rw [if_pos h]
      exact (ih seen).cons r
    · rw [if_neg h]
      exact (ih _).cons₂ r

theorem col0_not_seen_of_mem_dedupLoop {s : List Row} {seen : List String} {r : Row}
    (h : r ∈ dedupLoop s seen) : col0 r ∉ seen := by
  induction s generalizing seen with
  | nil => cases h
  | cons x xs ih =>
    rw [dedupLoop] at h
    by_cases hx : col0 x ∈ seen
    · rw [if_pos hx] at h
      exact ih h
    · rw [if_neg hx] at h
      rcases List.mem_cons.mp h with rfl | h2
      · exact hx
      · intro hmem
        exact ih h2 (List.mem_cons_of_mem _ hmem)

theorem dedupLoop_pairwise_ne (s : List Row) (seen : List String) :
    (dedupLoop s seen).Pairwise (fun a b => col0 a ≠ col0 b) := by
  induction s generalizing seen with
  | nil => exact List.Pairwise.nil
  | cons r rs ih =>
    rw [dedupLoop]
    by_cases h : col0 r ∈ seen
    · rw [if_pos h]
      exact ih seen
    · rw [if_neg h]
      rw [List.pairwise_cons]
      refine ⟨?_, ih _⟩
      intro y hy heq
      have hns := col0_not_seen_of_mem_dedupLoop hy
      apply hns
      rw [← heq]
      exact List.mem_cons_self _ _

theorem dedupLoop_eq_self {s : List Row} {seen : List String}
    (h1 : s.Pairwise (fun a b => col0 a ≠ col0 b))
    (h2 : ∀ r ∈ s, col0 r ∉ seen) :
    dedupLoop s seen = s := by
  induction s generalizing seen with
  | nil => rfl
  | cons r rs ih =>
    rw [List.pairwise_cons] at h1
    obtain ⟨hr, hrs⟩ := h1
    rw [dedupLoop, if_neg (h2 r (List.mem_cons_self r rs))]
    congr 1
    apply ih hrs
    intro x hx hmem
    rcases List.mem_cons.mp hmem with he | hm
    · exact hr x hx he.symm
    · exact h2 x (List.mem_cons_of_mem r hx) hm

theorem filter_dedupLoop (k : String) (s : List Row) (seen : List String) :
    (dedupLoop s seen).filter (fun r => col0 r == k) =
      if k ∈ seen then [] else (s.filter (fun r => col0 r == k)).take 1 := by
  induction s generalizing seen with
  | nil =>
    rw [dedupLoop, List.filter_nil]
    by_cases hk : k ∈ seen
    · rw [if_pos hk]
    · rw [if_neg hk, List.take_nil]
  | cons r rs ih =>
    rw [dedupLoop]
    by_cases hseen : col0 r ∈ seen
    · rw [if_pos hseen, ih]
      by_cases hk : k ∈ seen
      · rw [if_pos hk, if_pos hk]
      · rw [if_neg hk, if_neg hk, List.filter_cons]
        have hrk : (col0 r == k) = false := by
          cases hb : (col0 r == k)
          · rfl
          · exact absurd (eq_of_beq hb ▸ hseen) hk
        simp [hrk]
    · rw [if_neg hseen, List.filter_cons]
      cases hb : (col0 r == k)
      · simp only [Bool.false_eq_true, if_false]
        rw [ih]
        have hknotr : (k ∈ col0 r :: seen) ↔ k ∈ seen := by
          rw [List.mem_cons]
          constructor
          · intro hor
            rcases hor with he | hm
            · rw [he] at hb
              simp at hb
            · exact hm
          · exact fun hm => Or.inr hm
        by_cases hk : k ∈ seen
        · rw [if_pos (hknotr.mpr hk), if_pos hk]
        · rw [if_neg (fun hc => hk (hknotr.mp hc)), if_neg hk, List.filter_cons]
          simp [hb]
      · have hrk : col0 r = k := eq_of_beq hb
        simp only [if_true]
        rw [List.filter_cons]
        have hkn : k ∉ seen := hrk ▸ hseen
        rw [if_neg hkn]
        simp only [hb, if_true]
        rw [ih]
        rw [if_pos (by rw [← hrk]; exact List.mem_cons_self _ _)]
        simp

/-! ### The composed transform -/

theorem mem_filter_keyword_ne_nil {data : List Row} {r : Row}
    (h : r ∈ data.filter keywordRow) : r ≠ [] := by
  intro hr
  subst hr
  have h2 := (List.mem_filter.mp h).2
  rw [keywordRow_nil] at h2
  cases h2

theorem sortStage_filter_ok (data : List Row) :
    sortStage (data.filter keywordRow) =
      Except.ok (sortRows (data.filter keywordRow)) := by
  rw [sortStage, if_pos]
  rw [List.all_eq_true]
  intro r hr
  have hne := mem_filter_keyword_ne_nil hr
  cases hrr : r with
  | nil => exact absurd hrr hne
  | cons x xs => rfl

theorem transform_eq_ok (data : List Row) :
    transform data =
      Except.ok (dedupLoop (sortRows (data.filter keywordRow)) []) := by
  simp only [transform]
  rw [sortStage_filter_ok]
  rfl

theorem transform_ok_elim {data out : List Row}
    (h : transform data = Except.ok out) :
    out = dedupLoop (sortRows (data.filter keywordRow)) [] := by
  rw [transform_eq_ok] at h
  injection h with h
  exact h.symm

theorem transform_mem {data out : List Row}
    (h : transform data = Except.ok out) :
    ∀ r ∈ out, r ∈ data.filter keywordRow := by
  intro r hr
  rw [transform_ok_elim h] at hr
  exact (sortRows_perm _).subset ((dedupLoop_sublist _ _).subset hr)

theorem transform_sorted {data out : List Row}
    (h : transform data = Except.ok out) : out.Pairwise rowLe := by
  rw [transform_ok_elim h]
  exact List.Pairwise.sublist (dedupLoop_sublist _ _) (sortRows_sorted _)

theorem transform_pairwise_ne {data out : List Row}
    (h : transform data = Except.ok out) :
    out.Pairwise (fun a b => col0 a ≠ col0 b) := by
  rw [transform_ok_elim h]
  exact dedupLoop_pairwise_ne _ _

theorem transform_filter_take {data out : List Row}
    (h : transform data = Except.ok out) (k : String) :
    out.filter (fun r => col0 r == k) =
      ((data.filter keywordRow).filter (fun r => col0 r == k)).take 1 := by
  rw [transform_ok_elim h]
  rw [filter_dedupLoop, if_neg (List.not_mem_nil k), filter_sortRows]

theorem transform_idem {data out : List Row}
    (h : transform data = Except.ok out) :
    transform out = Except.ok out := by
  have hsubf : out.filter keywordRow = out := by
    rw [List.filter_eq_self]
    intro r hr
    exact (List.mem_filter.mp (transform_mem h r hr)).2
  rw [transform_eq_ok out, hsubf, sortRows_of_sorted (transform_sorted h),
    dedupLoop_eq_self (transform_pairwise_ne h)
      (fun r _ => List.not_mem_nil (col0 r))]

/-! ### Behaviour of `process_csv` on a present input file -/

theorem process_present_eq (header : Row) (t : List Row) :
    process_csv (FileInput.present (header :: t)) =
      if t.isEmpty then
        { written := some [header], messages := [Report.noData] }
      else
        { written := some (header :: dedupLoop (sortRows (t.filter keywordRow)) []),
          messages := [Report.success] } := by
  by_cases ht : t.isEmpty = true
  · simp only [process_csv, ht, if_true]
  · simp only [process_csv, transform_eq_ok]

/-! ### Claims -/

/-- C1: every data row of the output is one of the input data rows, and a data
row of the input is retained by the filter stage iff the comma-joined
concatenation of all its fields contains "San Diego" or "La Jolla" as a
literal, case-sensitive substring; a row containing only lowercase
"san diego" is excluded. -/
theorem C1_filter_subset_and_keyword (dataRows out : List Row)
    (h : transform dataRows = Except.ok out) :
    (∀ r ∈ out, r ∈ dataRows) ∧
    (∀ r ∈ dataRows,
      (r ∈ dataRows.filter keywordRow ↔
        SubstrOf "San Diego" (String.intercalate "," r) ∨
        SubstrOf "La Jolla" (String.intercalate "," r))) ∧
    keywordRow ["san diego"] = false := by
  refine ⟨?_, ?_, by decide⟩
  · intro r hr
    exact (List.mem_filter.mp (transform_mem h r hr)).1
  · intro r hrmem
    rw [← keywordRow_iff]
    constructor
    · intro hf
      exact (List.mem_filter.mp hf).2
    · intro hk
      exact List.mem_filter.mpr ⟨hrmem, hk⟩

/-- Witness for C1 at a concrete input. -/
theorem C1_filter_subset_and_keyword_witness :
    (∀ r ∈ ([["B", "San Diego"]] : List Row),
      r ∈ ([["B", "San Diego"], ["x", "nope"]] : List Row)) ∧
    (∀ r ∈ ([["B", "San Diego"], ["x", "nope"]] : List Row),
      (r ∈ ([["B", "San Diego"], ["x", "nope"]] : List Row).filter keywordRow ↔
        SubstrOf "San Diego" (String.intercalate "," r) ∨
        SubstrOf "La Jolla" (String.intercalate "," r))) ∧
    keywordRow ["san diego"] = false :=
  C1_filter_subset_and_keyword [["B", "San Diego"], ["x", "nope"]]
    [["B", "San Diego"]] (by rfl)

/-- C2: the data rows of the output are sorted ascending by the column-0
string under the default string order (lexicographic by code point), and the
sort stage is stable: for every key, the rows carrying that key keep exactly
their pre-sort relative order. -/
theorem C2_sorted_and_stable (dataRows out : List Row)
    (h : transform dataRows = Except.ok out) :
    out.Pairwise rowLe ∧
    (∀ k : String,
      (sortRows (dataRows.filter keywordRow)).filter (fun r => col0 r == k) =
        (dataRows.filter keywordRow).filter (fun r => col0 r == k)) :=
  ⟨transform_sorted h, fun k => filter_sortRows k _⟩

/-- Witness for C2 at a concrete input. -/
theorem C2_sorted_and_stable_witness :
    (([["A", "La Jolla"], ["B", "San Diego"]] : List Row).Pairwise rowLe) ∧
    (∀ k : String,
      (sortRows (([["B", "San Diego"], ["A", "La Jolla"]] : List Row).filter
          keywordRow)).filter (fun r => col0 r == k) =
        (([["B", "San Diego"], ["A", "La Jolla"]] : List Row).filter
          keywordRow).filter (fun r => col0 r == k)) :=
  C2_sorted_and_stable [["B", "San Diego"], ["A", "La Jolla"]]
    [["A", "La Jolla"], ["B", "San Diego"]] (by rfl)

/-- C3 counterexample: with header `["A"]` and the single matching data row
`["A", "San Diego"]`, the written output is the header followed by that row,
and those two output rows have the same column-0 value, so the claim as
stated (no two output rows with equal column-0 values, header included)
fails. -/
theorem C3_counterexample :
    (process_csv (FileInput.present [["A"], ["A", "San Diego"]])).written =
      some [["A"], ["A", "San Diego"]] ∧
    ¬ (([["A"], ["A", "San Diego"]] : List Row).Pairwise
        (fun a b => col0 a ≠ col0 b)) := by
  constructor
  · rfl
  · decide

/-- C3 amended: no two DATA rows of the output (the rows after the header)
have equal column-0 values; the header is written verbatim and may share its
column-0 value with a data row. -/
theorem C3_amended_no_dup_keys (header : Row) (t outData : List Row)
    (h : (process_csv (FileInput.present (header :: t))).written =
      some (header :: outData)) :
    outData.Pairwise (fun a b => col0 a ≠ col0 b) := by
  rw [process_present_eq] at h
  by_cases ht : t.isEmpty = true
  · rw [if_pos ht] at h
    have h2 : some [header] = some (header :: outData) := h
    injection h2 with h3
    injection h3 with _ h4
    rw [← h4]
    exact List.Pairwise.nil
  · rw [if_neg ht] at h
    have h2 : some (header :: dedupLoop (sortRows (t.filter keywordRow)) []) =
        some (header :: outData) := h
    injection h2 with h3
    injection h3 with _ h4
    rw [← h4]
    exact dedupLoop_pairwise_ne _ _

/-- Witness for the amended C3 at a concrete input. -/
theorem C3_amended_no_dup_keys_witness :
    ([["A", "San Diego"]] : List Row).Pairwise (fun a b => col0 a ≠ col0 b) :=
  C3_amended_no_dup_keys ["A"] [["A", "San Diego"]] [["A", "San Diego"]] (by rfl)

/-- C4: deduplication is a single pass over the sorted sequence (the output
is a sublist of it), and for each column-0 value it keeps exactly the first
row of the sorted sequence — by stability the earliest filtered row in input
order — and drops every later duplicate entirely. -/
theorem C4_dedup_keeps_first (dataRows out : List Row)
    (h : transform dataRows = Except.ok out) :
    out.Sublist (sortRows (dataRows.filter keywordRow)) ∧
    (∀ k : String, out.filter (fun r => col0 r == k) =
      ((sortRows (dataRows.filter keywordRow)).filter
        (fun r => col0 r == k)).take 1) ∧
    (∀ k : String, out.filter (fun r => col0 r == k) =
      ((dataRows.filter keywordRow).filter (fun r => col0 r == k)).take 1) := by
  refine ⟨?_, ?_, transform_filter_take h⟩
  · rw [transform_ok_elim h]
    exact dedupLoop_sublist _ _
  · intro k
    rw [filter_sortRows]
    exact transform_filter_take h k

/-- Witness for C4 at a concrete input with a duplicated key. -/
theorem C4_dedup_keeps_first_witness :
    (([["A", "La Jolla"], ["B", "San Diego"]] : List Row).Sublist
      (sortRows (([["B", "San Diego"], ["A", "La Jolla"], ["B", "La Jolla"]] :
        List Row).filter keywordRow))) ∧
    (∀ k : String,
      ([["A", "La Jolla"], ["B", "San Diego"]] : List Row).filter
          (fun r => col0 r == k) =
        ((sortRows (([["B", "San Diego"], ["A", "La Jolla"], ["B", "La Jolla"]] :
          List Row).filter keywordRow)).filter (fun r => col0 r == k)).take 1) ∧
    (∀ k : String,
      ([["A", "La Jolla"], ["B", "San Diego"]] : List Row).filter
          (fun r => col0 r == k) =
        ((([["B", "San Diego"], ["A", "La Jolla"], ["B", "La Jolla"]] :
          List Row).filter keywordRow).filter (fun r => col0 r == k)).take 1) :=
  C4_dedup_keeps_first [["B", "San Diego"], ["A", "La Jolla"], ["B", "La Jolla"]]
    [["A", "La Jolla"], ["B", "San Diego"]] (by rfl)

/-- C5: on the concrete scenario-1 input the program writes the header
`["name","city"]` followed by exactly `["A","La Jolla"]` then
`["B","San Diego"]`. -/
theorem C5_scenario1 :
    process_csv (FileInput.present
      [["name", "city"], ["B", "San Diego"], ["A", "La Jolla"],
       ["C", "Nowhere"], ["B", "La Jolla"]]) =
      { written := some [["name", "city"], ["A", "La Jolla"], ["B", "San Diego"]],
        messages := [Report.success] } := by decide

/-- C6: the transform is idempotent: re-running `process_csv` on its own
written output (first row treated as the header again) writes the same rows
again. -/
theorem C6_idempotent (header : Row) (dataRows out : List Row)
    (h : (process_csv (FileInput.present (header :: dataRows))).written =
      some (header :: out)) :
    (process_csv (FileInput.present (header :: out))).written =
      some (header :: out) := by
  rw [process_present_eq] at h
  rw [process_present_eq]
  by_cases ht : dataRows.isEmpty = true
  · rw [if_pos ht] at h
    have h2 : some [header] = some (header :: out) := h
    injection h2 with h3
    injection h3 with _ h4
    rw [← h4]
    rfl
  · rw [if_neg ht] at h
    have h2 : some (header :: dedupLoop (sortRows (dataRows.filter keywordRow)) []) =
        some (header :: out) := h
    injection h2 with h3
    injection h3 with _ h4
    have htr : transform out = Except.ok out :=
      transform_idem (h4 ▸ transform_eq_ok dataRows)
    have hout_eq : dedupLoop (sortRows (out.filter keywordRow)) [] = out :=
      (transform_ok_elim htr).symm
    by_cases ho : out.isEmpty = true
    · rw [if_pos ho]
      rw [List.isEmpty_iff.mp ho]
    · rw [if_neg ho, hout_eq]

/-- Witness for C6 at a concrete input. -/
theorem C6_idempotent_witness :
    (process_csv (FileInput.present
      [["name", "city"], ["B", "San Diego"]])).written =
      some [["name", "city"], ["B", "San Diego"]] :=
  C6_idempotent ["name", "city"] [["B", "San Diego"], ["C", "Nowhere"]]
    [["B", "San Diego"]] (by rfl)

/-- C7: the first raw row is the header: any written output is that header
followed by the transform of the remaining rows only (the header is never
filtered, sorted or deduplicated); a header-only input writes exactly the
header and reports no data to process; an input with no rows at all writes
an empty output with the same report. -/
theorem C7_header_handling (header : Row) (t : List Row) :
    (∀ out, (process_csv (FileInput.present (header :: t))).written = some out →
      ∃ dataOut, out = header :: dataOut ∧ transform t = Except.ok dataOut) ∧
    process_csv (FileInput.present [header]) =
      { written := some [header], messages := [Report.noData] } ∧
    process_csv (FileInput.present []) =
      { written := some [], messages := [Report.noData] } := by
  refine ⟨?_, rfl, rfl⟩
  intro out hout
  rw [process_present_eq] at hout
  by_cases ht : t.isEmpty = true
  · rw [if_pos ht] at hout
    have h2 : some [header] = some out := hout
    injection h2 with h3
    refine ⟨[], h3.symm, ?_⟩
    rw [List.isEmpty_iff.mp ht]
    rfl
  · rw [if_neg ht] at hout
    have h2 : some (header :: dedupLoop (sortRows (t.filter keywordRow)) []) =
        some out := hout
    injection h2 with h3
    exact ⟨_, h3.symm, transform_eq_ok t⟩

/-- Witness for C7 at a concrete input. -/
theorem C7_header_handling_witness :
    (∀ out, (process_csv (FileInput.present
        [["h1", "h2"], ["A", "La Jolla"]])).written = some out →
      ∃ dataOut, out = ["h1", "h2"] :: dataOut ∧
        transform [["A", "La Jolla"]] = Except.ok dataOut) ∧
    process_csv (FileInput.present [["h1", "h2"]]) =
      { written := some [["h1", "h2"]], messages := [Report.noData] } ∧
    process_csv (FileInput.present []) =
      { written := some [], messages := [Report.noData] } :=
  C7_header_handling ["h1", "h2"] [["A", "La Jolla"]]

/-- C8: a zero-field row among the rows reaching the sort stage makes the
sort-key extraction fail with the `IndexError`-equivalent `malformedRow`, a
report distinct from every other report (not a silent skip); and whenever the
transform fails this way, `process_csv` writes no output and reports exactly
that error. -/
theorem C8_empty_row_sort_error (rows : List Row) (hr : [] ∈ rows) :
    sortStage rows = Except.error Report.malformedRow ∧
    Report.malformedRow ≠ Report.noData ∧
    Report.malformedRow ≠ Report.success ∧
    Report.malformedRow ≠ Report.fileNotFound ∧
    (∀ header t, transform t = Except.error Report.malformedRow →
      process_csv (FileInput.present (header :: t)) =
        { written := none, messages := [Report.malformedRow] }) := by
  refine ⟨?_, by decide, by decide, by decide, ?_⟩
  · rw [sortStage, if_neg]
    intro hall
    rw [List.all_eq_true] at hall
    have hfalse := hall [] hr
    simp at hfalse
  · intro header t htr
    cases t with
    | nil =>
      rw [transform_eq_ok] at htr
      cases htr
    | cons a as =>
      simp only [process_csv, List.isEmpty_cons, if_false, htr]
      rfl

/-- Witness for C8 at the concrete list holding one zero-field row. -/
theorem C8_empty_row_sort_error_witness :
    sortStage [[]] = Except.error Report.malformedRow ∧
    Report.malformedRow ≠ Report.noData ∧
    Report.malformedRow ≠ Report.success ∧
    Report.malformedRow ≠ Report.fileNotFound ∧
    (∀ header t, transform t = Except.error Report.malformedRow →
      process_csv (FileInput.present (header :: t)) =
        { written := none, messages := [Report.malformedRow] }) :=
  C8_empty_row_sort_error [[]] (by decide)

/-- C9: a missing source file is reported as `fileNotFound` and nothing is
written to the output file; `process_csv` still returns an ordinary result
(the exception is caught, not raised to the caller). -/
theorem C9_missing_file :
    process_csv FileInput.missing =
      { written := none, messages := [Report.fileNotFound] } := rfl

/-- C10: every row that passes the keyword filter has at least one field (a
zero-field row joins to the empty string, which contains neither keyword),
so every row reaching the sort and deduplication stages is nonempty, the
transform always succeeds, and the `IndexError` branch is unreachable from
the filter's output. -/
theorem C10_no_index_error (dataRows : List Row) :
    (∀ r ∈ dataRows.filter keywordRow, r ≠ []) ∧
    (∀ r ∈ sortRows (dataRows.filter keywordRow), r ≠ []) ∧
    transform dataRows =
      Except.ok (dedupLoop (sortRows (dataRows.filter keywordRow)) []) ∧
    (∀ e, transform dataRows ≠ Except.error e) := by
  refine ⟨?_, ?_, transform_eq_ok dataRows, ?_⟩
  · intro r hr
    exact mem_filter_keyword_ne_nil hr
  · intro r hr
    exact mem_filter_keyword_ne_nil ((sortRows_perm _).subset hr)
  · intro e he
    rw [transform_eq_ok] at he
    cases he

/-- Witness for C10 at a concrete input holding a zero-field row. -/
theorem C10_no_index_error_witness :
    (∀ r ∈ ([["a", "San Diego"], []] : List Row).filter keywordRow, r ≠ []) ∧
    (∀ r ∈ sortRows (([["a", "San Diego"], []] : List Row).filter keywordRow),
      r ≠ []) ∧
    transform [["a", "San Diego"], []] =
      Except.ok (dedupLoop (sortRows (([["a", "San Diego"], []] :
        List Row).filter keywordRow)) []) ∧
    (∀ e, transform [["a", "San Diego"], []] ≠ Except.error e) :=
  C10_no_index_error [["a", "San Diego"], []]
